import Mathlib

set_option maxHeartbeats 1000000

noncomputable section

namespace BovyRK

/-!
Shallow embedding of src/galpy/util/bovy_rk.c (fixed-step RK4/RK6 ODE
integrators with one-shot adaptive step-size selection).

Modelling conventions:
* C doubles are modelled as real numbers; `double` arithmetic becomes exact
  field arithmetic on `ℝ`.
* A state vector of dimension `dim` is a function `Fin (n+1) → ℝ` with
  `dim = n+1` (the code reads `yo[0]` unconditionally, so `dim ≥ 1`).
* The derivative callback `func(t,q,a,nargs,args)` writes the derivative into
  the scratch buffer `a`; it is modelled as a pure function
  `ℝ → (Fin (n+1) → ℝ) → Fin (n+1) → ℝ`.  The parameter block `args` is
  caller state baked into `f` (it reappears explicitly in the `Mem` model
  below, which threads every caller-visible store).
* The unbounded `while` loop of the step-size estimator is modelled with an
  explicit fuel parameter; `none` means the loop has not terminated within
  `fuel` iterations (for any fuel).
-/

variable {n : ℕ}

/-- Embedding of `bovy_rk4_onestep` (bovy_rk.c lines 107-131).  The C routine
accumulates the weighted stage derivatives into the caller-initialized buffer
`yn1` (the drivers always pass `yn1` holding a copy of `yn`), using `ynk` for
the intermediate states and `a` for the derivative evaluations. -/
def bovy_rk4_onestep (f : ℝ → (Fin (n + 1) → ℝ) → Fin (n + 1) → ℝ)
    (yn yn1 : Fin (n + 1) → ℝ) (tn dt : ℝ) : Fin (n + 1) → ℝ :=
  let a1 := f tn yn
  let y1a := fun i => yn1 i + dt * a1 i / 6
  let ynk1 := fun i => yn i + dt * a1 i / 2
  let a2 := f (tn + dt / 2) ynk1
  let y1b := fun i => y1a i + dt * a2 i / 3
  let ynk2 := fun i => yn i + dt * a2 i / 2
  let a3 := f (tn + dt / 2) ynk2
  let y1c := fun i => y1b i + dt * a3 i / 3
  let ynk3 := fun i => yn i + dt * a3 i
  let a4 := f (tn + dt) ynk3
  fun i => y1c i + dt * a4 i / 6

/-- Embedding of `bovy_rk6_onestep` (bovy_rk.c lines 208-263).  Stage
derivatives `k1..k5` are stored; the accumulator `yn1` receives the weighted
combination `(11 k1 + 81 k3 + 81 k4 - 32 k5 - 32 k6 + 11 k7)/120`.  Note the
seventh intermediate state uses `- 63 * k3` (line 256 of the source), while
the comment block above the C function (lines 196-207) states `+ 63*k3`. -/
def bovy_rk6_onestep (f : ℝ → (Fin (n + 1) → ℝ) → Fin (n + 1) → ℝ)
    (yn yn1 : Fin (n + 1) → ℝ) (tn dt : ℝ) : Fin (n + 1) → ℝ :=
  let a1 := f tn yn
  let y1a := fun i => yn1 i + 11 * dt * a1 i / 120
  let k1 := fun i => dt * a1 i
  let ynk1 := fun i => yn i + k1 i / 3
  let a2 := f (tn + dt / 3) ynk1
  let k2 := fun i => dt * a2 i
  let ynk2 := fun i => yn i + 2 * k2 i / 3
  let a3 := f (tn + 2 * dt / 3) ynk2
  let y1b := fun i => y1a i + 81 * dt * a3 i / 120
  let k3 := fun i => dt * a3 i
  let ynk3 := fun i => yn i + (k1 i + 4 * k2 i - k3 i) / 12
  let a4 := f (tn + dt / 3) ynk3
  let y1c := fun i => y1b i + 81 * dt * a4 i / 120
  let k4 := fun i => dt * a4 i
  let ynk4 := fun i => yn i + (-k1 i + 18 * k2 i - 3 * k3 i - 6 * k4 i) / 16
  let a5 := f (tn + dt / 2) ynk4
  let y1d := fun i => y1c i - 32 * dt * a5 i / 120
  let k5 := fun i => dt * a5 i
  let ynk5 := fun i => yn i + (9 * k2 i - 3 * k3 i - 6 * k4 i + 4 * k5 i) / 8
  let a6 := f (tn + dt / 2) ynk5
  let y1e := fun i => y1d i - 32 * dt * a6 i / 120
  let ynk6 := fun i =>
    yn i + (9 * k1 i - 36 * k2 i - 63 * k3 i + 72 * k4 i - 64 * k5 i) / 44
  let a7 := f (tn + dt) ynk6
  fun i => y1e i + 11 * dt * a7 i / 120

/-- The intermediate state at which `bovy_rk6_onestep` takes its seventh
derivative evaluation (the `ynk` value set at bovy_rk.c lines 254-258, used
by the `func` call at line 260).  Recomputes the stage values `k1..k5`
exactly as the source does. -/
def bovy_rk6_k7state (f : ℝ → (Fin (n + 1) → ℝ) → Fin (n + 1) → ℝ)
    (yn : Fin (n + 1) → ℝ) (tn dt : ℝ) : Fin (n + 1) → ℝ :=
  let a1 := f tn yn
  let k1 := fun i => dt * a1 i
  let ynk1 := fun i => yn i + k1 i / 3
  let a2 := f (tn + dt / 3) ynk1
  let k2 := fun i => dt * a2 i
  let ynk2 := fun i => yn i + 2 * k2 i / 3
  let a3 := f (tn + 2 * dt / 3) ynk2
  let k3 := fun i => dt * a3 i
  let ynk3 := fun i => yn i + (k1 i + 4 * k2 i - k3 i) / 12
  let a4 := f (tn + dt / 3) ynk3
  let k4 := fun i => dt * a4 i
  let ynk4 := fun i => yn i + (-k1 i + 18 * k2 i - 3 * k3 i - 6 * k4 i) / 16
  let a5 := f (tn + dt / 2) ynk4
  let k5 := fun i => dt * a5 i
  fun i => yn i + (9 * k1 i - 36 * k2 i - 63 * k3 i + 72 * k4 i - 64 * k5 i) / 44

/-- The `yn1` accumulator of `bovy_rk6_onestep` just before the seventh
derivative evaluation is folded in (the state of `yn1` after bovy_rk.c
line 253). -/
def bovy_rk6_after6 (f : ℝ → (Fin (n + 1) → ℝ) → Fin (n + 1) → ℝ)
    (yn yn1 : Fin (n + 1) → ℝ) (tn dt : ℝ) : Fin (n + 1) → ℝ :=
  let a1 := f tn yn
  let y1a := fun i => yn1 i + 11 * dt * a1 i / 120
  let k1 := fun i => dt * a1 i
  let ynk1 := fun i => yn i + k1 i / 3
  let a2 := f (tn + dt / 3) ynk1
  let k2 := fun i => dt * a2 i
  let ynk2 := fun i => yn i + 2 * k2 i / 3
  let a3 := f (tn + 2 * dt / 3) ynk2
  let y1b := fun i => y1a i + 81 * dt * a3 i / 120
  let k3 := fun i => dt * a3 i
  let ynk3 := fun i => yn i + (k1 i + 4 * k2 i - k3 i) / 12
  let a4 := f (tn + dt / 3) ynk3
  let y1c := fun i => y1b i + 81 * dt * a4 i / 120
  let k4 := fun i => dt * a4 i
  let ynk4 := fun i => yn i + (-k1 i + 18 * k2 i - 3 * k3 i - 6 * k4 i) / 16
  let a5 := f (tn + dt / 2) ynk4
  let y1d := fun i => y1c i - 32 * dt * a5 i / 120
  let k5 := fun i => dt * a5 i
  let ynk5 := fun i => yn i + (9 * k2 i - 3 * k3 i - 6 * k4 i + 4 * k5 i) / 8
  let a6 := f (tn + dt / 2) ynk5
  fun i => y1d i - 32 * dt * a6 i / 120

/-- The seventh-stage intermediate state as the specification writes it:
`yn + (9 k1 - 36 k2 + 63 k3 + 72 k4 - 64 k5)/44` (note `+ 63 * k3`, matching
both the spec section 4.3 and the C source's own comment block at lines
196-207).  This definition follows the spec words, for comparison with
`bovy_rk6_k7state`, which is translated from the executable source. -/
def rk6_k7state_spec (f : ℝ → (Fin (n + 1) → ℝ) → Fin (n + 1) → ℝ)
    (yn : Fin (n + 1) → ℝ) (tn dt : ℝ) : Fin (n + 1) → ℝ :=
  let a1 := f tn yn
  let k1 := fun i => dt * a1 i
  let ynk1 := fun i => yn i + k1 i / 3
  let a2 := f (tn + dt / 3) ynk1
  let k2 := fun i => dt * a2 i
  let ynk2 := fun i => yn i + 2 * k2 i / 3
  let a3 := f (tn + 2 * dt / 3) ynk2
  let k3 := fun i => dt * a3 i
  let ynk3 := fun i => yn i + (k1 i + 4 * k2 i - k3 i) / 12
  let a4 := f (tn + dt / 3) ynk3
  let k4 := fun i => dt * a4 i
  let ynk4 := fun i => yn i + (-k1 i + 18 * k2 i - 3 * k3 i - 6 * k4 i) / 16
  let a5 := f (tn + dt / 2) ynk4
  let k5 := fun i => dt * a5 i
  fun i => yn i + (9 * k1 i - 36 * k2 i + 63 * k3 i + 72 * k4 i - 64 * k5 i) / 44

/-- The last stage of `bovy_rk6_onestep` evaluates the derivative at time
`tn + dt` at exactly the state `bovy_rk6_k7state`. -/
theorem rk6_onestep_last_stage (f : ℝ → (Fin (n + 1) → ℝ) → Fin (n + 1) → ℝ)
    (yn yn1 : Fin (n + 1) → ℝ) (tn dt : ℝ) :
    bovy_rk6_onestep f yn yn1 tn dt = fun i =>
      bovy_rk6_after6 f yn yn1 tn dt i +
        11 * dt * f (tn + dt) (bovy_rk6_k7state f yn tn dt) i / 120 := rfl

/-- Concrete one-dimensional state holding the constant `c`. -/
def cfun (c : ℝ) : Fin 1 → ℝ := fun _ => c

/-- The all-zero one-dimensional state. -/
def zfun : Fin 1 → ℝ := fun _ => 0

/-- One-dimensional derivative `f(t,y) = t^2`, used to exhibit the sign of
the `k3` coefficient in the seventh-stage state. -/
def fsq : ℝ → (Fin 1 → ℝ) → Fin 1 → ℝ := fun t _ => cfun (t ^ 2)

/-- C6: `bovy_rk4_onestep`, entered with the output buffer holding a copy of
the input state (as the drivers ensure), computes the classical four-stage
RK4 update: derivative evaluations at `(tn, yn)`, `(tn+dt/2, yn + dt/2*k1)`,
`(tn+dt/2, yn + dt/2*k2)`, `(tn+dt, yn + dt*k3)` combined as
`yn1 = yn + dt/6*(k1 + 2 k2 + 2 k3 + k4)`. -/
theorem rk4_onestep_classical_formula
    (f : ℝ → (Fin (n + 1) → ℝ) → Fin (n + 1) → ℝ)
    (yn : Fin (n + 1) → ℝ) (tn dt : ℝ) :
    bovy_rk4_onestep f yn yn tn dt =
      (let k1 := f tn yn
       let k2 := f (tn + dt / 2) (fun i => yn i + dt / 2 * k1 i)
       let k3 := f (tn + dt / 2) (fun i => yn i + dt / 2 * k2 i)
       let k4 := f (tn + dt) (fun i => yn i + dt * k3 i)
       fun i => yn i + dt / 6 * (k1 i + 2 * k2 i + 2 * k3 i + k4 i)) := by
  have h1 : (fun i => yn i + dt * f tn yn i / 2)
      = fun i => yn i + dt / 2 * f tn yn i := by
    funext i; ring
  simp only [bovy_rk4_onestep, h1]
  have h2 : (fun i => yn i + dt * f (tn + dt / 2)
        (fun i => yn i + dt / 2 * f tn yn i) i / 2)
      = fun i => yn i + dt / 2 * f (tn + dt / 2)
        (fun i => yn i + dt / 2 * f tn yn i) i := by
    funext i; ring
  simp only [h2]
  funext i
  ring

/-- C2 (code_bug evidence): for the derivative `f(t,y) = t^2`, from `yn = 0`,
`tn = 0`, `dt = 1`, the state at which the source takes the seventh
derivative evaluation is `-10/11` (it uses `- 63 * k3`, bovy_rk.c line 256),
whereas the coefficient `+ 63 * k3` claimed by the spec (and by the C file's
own comment block, lines 196-207) gives `4/11`.  The last conjunct re-states
that `bovy_rk6_onestep` really evaluates its seventh stage at
`bovy_rk6_k7state`. -/
theorem rk6_k7_stage_state_sign_flip :
    bovy_rk6_k7state fsq zfun 0 1 = cfun (-(10 / 11)) ∧
    rk6_k7state_spec fsq zfun 0 1 = cfun (4 / 11) ∧
    bovy_rk6_k7state fsq zfun 0 1 ≠ rk6_k7state_spec fsq zfun 0 1 ∧
    (∀ (f : ℝ → (Fin (n + 1) → ℝ) → Fin (n + 1) → ℝ)
        (yn yn1 : Fin (n + 1) → ℝ) (tn dt : ℝ),
      bovy_rk6_onestep f yn yn1 tn dt = fun i =>
        bovy_rk6_after6 f yn yn1 tn dt i +
          11 * dt * f (tn + dt) (bovy_rk6_k7state f yn tn dt) i / 120) := by
  have hcode : bovy_rk6_k7state fsq zfun 0 1 = cfun (-(10 / 11)) := by
    funext i
    simp only [bovy_rk6_k7state, fsq, cfun, zfun]
    norm_num
  have hspec : rk6_k7state_spec fsq zfun 0 1 = cfun (4 / 11) := by
    funext i
    simp only [rk6_k7state_spec, fsq, cfun, zfun]
    norm_num
  refine ⟨hcode, hspec, ?_, fun f yn yn1 tn dt => rfl⟩
  rw [hcode, hspec]
  intro h
  have := congrFun h 0
  simp only [cfun] at this
  norm_num at this

/-- The running maximum of `|yo[ii]|` computed at bovy_rk.c lines 287-291
(`max_val`), folding over components `1..dim-1` starting from `|yo[0]|`. -/
def maxAbs (y : Fin (n + 1) → ℝ) : ℝ :=
  (List.finRange n).foldl (fun m i => max m |y i.succ|) |y 0|

/-- The tolerance scale set at bovy_rk.c lines 292-295: with
`c = fmax(atol, rtol*max_val)`, every component of `scale` is
`s = log(exp(atol-c) + exp(rtol*max_val-c)) + c`, a numerically stable
log-sum-exp of `atol` and `rtol*max_val`. -/
def lseScale (yo : Fin (n + 1) → ℝ) (rtol atol : ℝ) : ℝ :=
  let c := max atol (rtol * maxAbs yo)
  Real.log (Real.exp (atol - c) + Real.exp (rtol * maxAbs yo - c)) + c

/-- One summand of the error norm at bovy_rk.c line 314:
`exp(2*log(fabs(d)) - 2*scale)`.  For `d = 0`, IEEE arithmetic gives
`log(0) = -inf` and `exp(-inf) = 0`, hence the explicit zero branch
(Mathlib's `Real.log 0 = 0` convention would otherwise differ). -/
def errTerm (d s : ℝ) : ℝ :=
  if d = 0 then 0 else Real.exp (2 * Real.log |d| - 2 * s)

/-- The step-doubling error estimate computed in the body of the `while`
loop of `rk4_estimate_step` (bovy_rk.c lines 300-316): one RK4 step of size
`dt` from `yo` against two successive RK4 steps of size `dt/2`, combined in
the root-mean-square norm `sqrt((sum_i errTerm((y1-y2)_i, scale_i))/dim)`. -/
def rk4_err (f : ℝ → (Fin (n + 1) → ℝ) → Fin (n + 1) → ℝ)
    (yo : Fin (n + 1) → ℝ) (t0 dt rtol atol : ℝ) : ℝ :=
  let s := lseScale yo rtol atol
  let y1 := bovy_rk4_onestep f yo yo t0 dt
  let y21 := bovy_rk4_onestep f yo yo t0 (dt / 2)
  let y2 := bovy_rk4_onestep f y21 y21 (t0 + dt / 2) (dt / 2)
  Real.sqrt ((∑ i, errTerm (y1 i - y2 i) s) / (n + 1))

/-- Step-doubling error estimate of the RK6 estimator (bovy_rk.c lines
365-384), identical to `rk4_err` but using `bovy_rk6_onestep` for the trial
steps. -/
def rk6_err (f : ℝ → (Fin (n + 1) → ℝ) → Fin (n + 1) → ℝ)
    (yo : Fin (n + 1) → ℝ) (t0 dt rtol atol : ℝ) : ℝ :=
  let s := lseScale yo rtol atol
  let y1 := bovy_rk6_onestep f yo yo t0 dt
  let y21 := bovy_rk6_onestep f yo yo t0 (dt / 2)
  let y2 := bovy_rk6_onestep f y21 y21 (t0 + dt / 2) (dt / 2)
  Real.sqrt ((∑ i, errTerm (y1 i - y2 i) s) / (n + 1))

/-- The halving loop shared by both estimators (bovy_rk.c lines 296-317:
`dt *= 2; while (err > 1.) { dt /= 2; err = ...; }`), parameterized by the
error estimate `e` as a function of the trial step.  The C loop is unbounded;
`fuel` bounds the modelled iteration count, with `none` meaning the loop has
not accepted a step within `fuel` trials. -/
def estimate_loop (e : ℝ → ℝ) : ℕ → ℝ → Option ℝ
  | 0, _ => none
  | fuel + 1, dt => if e (dt / 2) ≤ 1 then some (dt / 2)
                    else estimate_loop e fuel (dt / 2)

/-- Embedding of `rk4_estimate_step` (bovy_rk.c lines 269-328): doubles the
proposed step, then repeatedly halves it until the step-doubling RK4 error
estimate is at most 1.  `t0` is the start time `*t`. -/
def rk4_estimate_step (f : ℝ → (Fin (n + 1) → ℝ) → Fin (n + 1) → ℝ)
    (yo : Fin (n + 1) → ℝ) (dt t0 rtol atol : ℝ) (fuel : ℕ) : Option ℝ :=
  estimate_loop (fun h => rk4_err f yo t0 h rtol atol) fuel (2 * dt)

/-- Embedding of the RK6 step-size estimator (bovy_rk.c lines 329-401).  The
source file textually declares that function under the (duplicate) name
`rk4_estimate_step`, but its body performs `bovy_rk6_onestep` trial steps and
it is the function `bovy_rk6` invokes as `rk6_estimate_step` (line 162), so
it is embedded here under its call-site name. -/
def rk6_estimate_step (f : ℝ → (Fin (n + 1) → ℝ) → Fin (n + 1) → ℝ)
    (yo : Fin (n + 1) → ℝ) (dt t0 rtol atol : ℝ) (fuel : ℕ) : Option ℝ :=
  estimate_loop (fun h => rk6_err f yo t0 h rtol atol) fuel (2 * dt)

/-- If the first `nn` trials fail and trial `nn` succeeds, the halving loop
returns `dt / 2 ^ (nn+1)` (its argument is the already-doubled step, so trial
`m` tests `dt / 2 ^ (m+1)`). -/
theorem estimate_loop_reaches (e : ℝ → ℝ) :
    ∀ (nn fuel : ℕ) (dt : ℝ), nn < fuel →
      (∀ m, m < nn → ¬ e (dt / 2 ^ (m + 1)) ≤ 1) → e (dt / 2 ^ (nn + 1)) ≤ 1 →
      estimate_loop e fuel dt = some (dt / 2 ^ (nn + 1)) := by
  intro nn
  induction nn with
  | zero =>
    intro fuel dt hf hmin hacc
    match fuel, hf with
    | fuel + 1, _ =>
      rw [pow_one] at hacc
      simp [estimate_loop, hacc]
  | succ m ih =>
    intro fuel dt hf hmin hacc
    match fuel, hf with
    | fuel + 1, hf =>
      have h0 : ¬ e (dt / 2) ≤ 1 := by
        have := hmin 0 (Nat.succ_pos m)
        rwa [pow_one] at this
      have hstep : ∀ k : ℕ, dt / 2 / 2 ^ (k + 1) = dt / 2 ^ (k + 2) := by
        intro k
        rw [div_div, ← pow_succ']
      have hmin2 : ∀ k, k < m → ¬ e (dt / 2 / 2 ^ (k + 1)) ≤ 1 := by
        intro k hk
        rw [hstep k]
        exact hmin (k + 1) (Nat.succ_lt_succ hk)
      have hacc2 : e (dt / 2 / 2 ^ (m + 1)) ≤ 1 := by
        rw [hstep m]; exact hacc
      have := ih fuel (dt / 2) (Nat.lt_of_succ_lt_succ hf) hmin2 hacc2
      rw [estimate_loop, if_neg h0, this, hstep m]

/-- Any step returned by the halving loop has the form `dt / 2 ^ (k+1)` for
some `k`, and the error estimate accepts it. -/
theorem estimate_loop_shape (e : ℝ → ℝ) :
    ∀ (fuel : ℕ) (dt r : ℝ), estimate_loop e fuel dt = some r →
      ∃ k : ℕ, r = dt / 2 ^ (k + 1) ∧ e r ≤ 1 := by
  intro fuel
  induction fuel with
  | zero => intro dt r h; simp [estimate_loop] at h
  | succ m ih =>
    intro dt r h
    by_cases hc : e (dt / 2) ≤ 1
    · rw [estimate_loop, if_pos hc] at h
      obtain rfl : dt / 2 = r := Option.some.inj h
      exact ⟨0, by rw [pow_one], hc⟩
    · rw [estimate_loop, if_neg hc] at h
      obtain ⟨k, hk, he⟩ := ih (dt / 2) r h
      refine ⟨k + 1, ?_, he⟩
      rw [hk, div_div, ← pow_succ']

/-- C's `(long)` cast applied to a double (bovy_rk.c line 81 / 164:
`long ndt = (long)(init_dt/dt);`): truncation toward zero. -/
def truncLong (x : ℝ) : ℤ := if 0 ≤ x then ⌊x⌋ else ⌈x⌉

/-- One body execution of the drivers' substep loops (bovy_rk.c lines 86-89 /
91-92): perform one RK4 single step from the rolling state (whose copy also
fills the accumulator `yn1`) at the rolling time, then advance the time by
`dt`.  The state component is the post-`reset` value of both `yn` and `yn1`. -/
def rk4_step1 (f : ℝ → (Fin (n + 1) → ℝ) → Fin (n + 1) → ℝ) (dt : ℝ)
    (p : (Fin (n + 1) → ℝ) × ℝ) : (Fin (n + 1) → ℝ) × ℝ :=
  (bovy_rk4_onestep f p.1 p.1 p.2 dt, p.2 + dt)

/-- Same as `rk4_step1` with the RK6 single-step formula (bovy_rk.c lines
169-173). -/
def rk6_step1 (f : ℝ → (Fin (n + 1) → ℝ) → Fin (n + 1) → ℝ) (dt : ℝ)
    (p : (Fin (n + 1) → ℝ) × ℝ) : (Fin (n + 1) → ℝ) × ℝ :=
  (bovy_rk6_onestep f p.1 p.1 p.2 dt, p.2 + dt)

/-- The output-interval loop of `bovy_rk4` (bovy_rk.c lines 84-98): for each
of the remaining intervals, run `inner` single steps, then one more single
step whose result is saved to the output buffer.  Returns the list of saved
blocks. -/
def rk4_intervals (f : ℝ → (Fin (n + 1) → ℝ) → Fin (n + 1) → ℝ) (dt : ℝ)
    (inner : ℕ) : ℕ → ((Fin (n + 1) → ℝ) × ℝ) → List (Fin (n + 1) → ℝ)
  | 0, _ => []
  | m + 1, p =>
    let q := rk4_step1 f dt ((rk4_step1 f dt)^[inner] p)
    q.1 :: rk4_intervals f dt inner m q

/-- The output-interval loop of `bovy_rk6` (bovy_rk.c lines 167-183): the
`inner` substeps use `bovy_rk6_onestep` (line 169), but the final step of
each interval — the one whose result is saved — calls `bovy_rk4_onestep`
(line 175), passing the RK6 stage buffers as extra arguments. -/
def rk6_intervals (f : ℝ → (Fin (n + 1) → ℝ) → Fin (n + 1) → ℝ) (dt : ℝ)
    (inner : ℕ) : ℕ → ((Fin (n + 1) → ℝ) × ℝ) → List (Fin (n + 1) → ℝ)
  | 0, _ => []
  | m + 1, p =>
    let q := rk4_step1 f dt ((rk6_step1 f dt)^[inner] p)
    q.1 :: rk6_intervals f dt inner m q

/-- Embedding of the `bovy_rk4` trajectory driver (bovy_rk.c lines 58-105):
save `yo` as block 0, estimate the internal step starting from the first
output interval `t[1]-t[0]`, compute `ndt = (long)(init_dt/dt)`, then emit
one block per remaining interval, each reached by `(ndt-1)` inner substeps
plus one final substep.  `none` propagates estimator non-termination within
`fuel` halvings. -/
def bovy_rk4 (f : ℝ → (Fin (n + 1) → ℝ) → Fin (n + 1) → ℝ)
    (yo : Fin (n + 1) → ℝ) (nt : ℕ) (t : ℕ → ℝ) (rtol atol : ℝ)
    (fuel : ℕ) : Option (List (Fin (n + 1) → ℝ)) :=
  let dt0 := t 1 - t 0
  match rk4_estimate_step f yo dt0 (t 0) rtol atol fuel with
  | none => none
  | some dt =>
    let ndt := truncLong (dt0 / dt)
    some (yo :: rk4_intervals f dt ((ndt - 1).toNat) (nt - 1) (yo, t 0))

/-- Embedding of the `bovy_rk6` trajectory driver (bovy_rk.c lines 136-195),
identical in structure to `bovy_rk4` but using the RK6 estimator and the
mixed-step interval loop `rk6_intervals`. -/
def bovy_rk6 (f : ℝ → (Fin (n + 1) → ℝ) → Fin (n + 1) → ℝ)
    (yo : Fin (n + 1) → ℝ) (nt : ℕ) (t : ℕ → ℝ) (rtol atol : ℝ)
    (fuel : ℕ) : Option (List (Fin (n + 1) → ℝ)) :=
  let dt0 := t 1 - t 0
  match rk6_estimate_step f yo dt0 (t 0) rtol atol fuel with
  | none => none
  | some dt =>
    let ndt := truncLong (dt0 / dt)
    some (yo :: rk6_intervals f dt ((ndt - 1).toNat) (nt - 1) (yo, t 0))

/-- Caller-owned memory visible to one integration run: the initial state
array `yo`, the time grid `t`, the parameter block `args`, and the output
buffer `res`.  Every store the C code performs to caller-owned memory goes
through the `result` pointer (`save_rk`, bovy_rk.c lines 265-268); `yo`, `t`
and `args` are only ever read, and the scratch buffers are `malloc`ed and
`free`d inside the run. -/
structure Mem (n : ℕ) where
  yo : Fin (n + 1) → ℝ
  t : ℕ → ℝ
  args : List ℝ
  res : List (Fin (n + 1) → ℝ)

/-- The `bovy_rk4` entry point acting on the caller-owned memory: the
derivative callback receives the parameter block on every call, and the only
field the run replaces is the output buffer `res`. -/
def bovy_rk4_mem (f : ℝ → (Fin (n + 1) → ℝ) → List ℝ → Fin (n + 1) → ℝ)
    (nt : ℕ) (rtol atol : ℝ) (fuel : ℕ) (m : Mem n) : Option (Mem n) :=
  match bovy_rk4 (fun tt q => f tt q m.args) m.yo nt m.t rtol atol fuel with
  | none => none
  | some out => some { yo := m.yo, t := m.t, args := m.args, res := out }

/-- The `bovy_rk6` entry point acting on the caller-owned memory. -/
def bovy_rk6_mem (f : ℝ → (Fin (n + 1) → ℝ) → List ℝ → Fin (n + 1) → ℝ)
    (nt : ℕ) (rtol atol : ℝ) (fuel : ℕ) (m : Mem n) : Option (Mem n) :=
  match bovy_rk6 (fun tt q => f tt q m.args) m.yo nt m.t rtol atol fuel with
  | none => none
  | some out => some { yo := m.yo, t := m.t, args := m.args, res := out }

theorem two_dt_halved (dt0 : ℝ) : ∀ m : ℕ, 2 * dt0 / 2 ^ (m + 1) = dt0 / 2 ^ m := by
  intro m
  rw [pow_succ']
  exact mul_div_mul_left dt0 (2 ^ m) two_ne_zero

/-- C4: the estimator starts from `2*dt0` and halves before each trial, so
trial `m` tests exactly `dt0 / 2^m` — the first tested step is the
caller-proposed `dt0` itself.  If the first `nn` trials fail and trial `nn`
succeeds, the estimator returns `dt0 / 2^nn`; and whatever it returns never
exceeds `dt0` (for `dt0 ≥ 0`). -/
theorem rk4_estimate_step_halving_from_dt0
    (f : ℝ → (Fin (n + 1) → ℝ) → Fin (n + 1) → ℝ) (yo : Fin (n + 1) → ℝ)
    (t0 rtol atol dt0 : ℝ) (nn fuel : ℕ)
    (hf : nn < fuel)
    (hmin : ∀ m, m < nn → ¬ rk4_err f yo t0 (dt0 / 2 ^ m) rtol atol ≤ 1)
    (hacc : rk4_err f yo t0 (dt0 / 2 ^ nn) rtol atol ≤ 1) :
    rk4_estimate_step f yo dt0 t0 rtol atol fuel = some (dt0 / 2 ^ nn) ∧
    ∀ (fuel2 : ℕ) (r : ℝ),
      rk4_estimate_step f yo dt0 t0 rtol atol fuel2 = some r →
      0 ≤ dt0 → r ≤ dt0 := by
  constructor
  · have hmin2 : ∀ m, m < nn →
        ¬ rk4_err f yo t0 (2 * dt0 / 2 ^ (m + 1)) rtol atol ≤ 1 := by
      intro m hm
      rw [two_dt_halved]
      exact hmin m hm
    have hacc2 : rk4_err f yo t0 (2 * dt0 / 2 ^ (nn + 1)) rtol atol ≤ 1 := by
      rw [two_dt_halved]; exact hacc
    have := estimate_loop_reaches (fun h => rk4_err f yo t0 h rtol atol)
      nn fuel (2 * dt0) hf hmin2 hacc2
    rw [rk4_estimate_step, this, two_dt_halved]
  · intro fuel2 r hr h0
    rw [rk4_estimate_step] at hr
    obtain ⟨k, hk, _⟩ :=
      estimate_loop_shape (fun h => rk4_err f yo t0 h rtol atol) fuel2 (2 * dt0) r hr
    rw [two_dt_halved] at hk
    subst hk
    have h2k : (1 : ℝ) ≤ 2 ^ k := by
      have h := Nat.one_le_two_pow (n := k)
      exact_mod_cast h
    exact div_le_self h0 h2k

/-- The identically-zero one-dimensional derivative function. -/
def f0 : ℝ → (Fin 1 → ℝ) → Fin 1 → ℝ := fun _ _ => zfun

/-- The linear time grid `t[i] = i` (strictly increasing, equally spaced). -/
def tlin : ℕ → ℝ := fun i => i

theorem rk4_onestep_f0 (y : Fin 1 → ℝ) (tn dt : ℝ) :
    bovy_rk4_onestep f0 y y tn dt = y := by
  funext i
  simp [bovy_rk4_onestep, f0, zfun]

theorem rk6_onestep_f0 (y : Fin 1 → ℝ) (tn dt : ℝ) :
    bovy_rk6_onestep f0 y y tn dt = y := by
  funext i
  simp [bovy_rk6_onestep, f0, zfun]

theorem errTerm_zero (s : ℝ) : errTerm 0 s = 0 := by
  simp [errTerm]

theorem rk4_err_f0 (y : Fin 1 → ℝ) (t0 dt rtol atol : ℝ) :
    rk4_err f0 y t0 dt rtol atol = 0 := by
  simp only [rk4_err, rk4_onestep_f0]
  simp [errTerm_zero]

theorem rk6_err_f0 (y : Fin 1 → ℝ) (t0 dt rtol atol : ℝ) :
    rk6_err f0 y t0 dt rtol atol = 0 := by
  simp only [rk6_err, rk6_onestep_f0]
  simp [errTerm_zero]

/-- Witness for `rk4_estimate_step_halving_from_dt0`: with the zero
derivative the very first trial (`nn = 0`) accepts, and the estimator
returns `dt0 / 2 ^ 0 = dt0`. -/
theorem rk4_estimate_step_halving_witness :
    rk4_estimate_step f0 zfun 1 0 0 0 1 = some (1 / 2 ^ 0) :=
  (rk4_estimate_step_halving_from_dt0 f0 zfun 0 0 0 1 0 1 (by norm_num)
    (fun m hm => absurd hm (Nat.not_lt_zero m))
    (by rw [rk4_err_f0]; norm_num)).1

theorem rk4_estimate_f0 (y : Fin 1 → ℝ) (dt0 t0 rtol atol : ℝ) :
    rk4_estimate_step f0 y dt0 t0 rtol atol 1 = some dt0 := by
  have h2 : 2 * dt0 / 2 = dt0 := by ring
  simp [rk4_estimate_step, estimate_loop, h2, rk4_err_f0]

theorem rk6_estimate_f0 (y : Fin 1 → ℝ) (dt0 t0 rtol atol : ℝ) :
    rk6_estimate_step f0 y dt0 t0 rtol atol 1 = some dt0 := by
  have h2 : 2 * dt0 / 2 = dt0 := by ring
  simp [rk6_estimate_step, estimate_loop, h2, rk6_err_f0]

theorem rk4_step1_f0_iter (dt : ℝ) (y : Fin 1 → ℝ) :
    ∀ (k : ℕ) (c : ℝ), (rk4_step1 f0 dt)^[k] (y, c) = (y, c + k * dt) := by
  intro k
  induction k with
  | zero => intro c; simp
  | succ m ih =>
    intro c
    rw [Function.iterate_succ_apply, rk4_step1, rk4_onestep_f0, ih]
    have : c + dt + m * dt = c + (m + 1) * dt := by ring
    rw [this]
    push_cast
    ring_nf

theorem rk6_step1_f0_iter (dt : ℝ) (y : Fin 1 → ℝ) :
    ∀ (k : ℕ) (c : ℝ), (rk6_step1 f0 dt)^[k] (y, c) = (y, c + k * dt) := by
  intro k
  induction k with
  | zero => intro c; simp
  | succ m ih =>
    intro c
    rw [Function.iterate_succ_apply, rk6_step1, rk6_onestep_f0, ih]
    have : c + dt + m * dt = c + (m + 1) * dt := by ring
    rw [this]
    push_cast
    ring_nf

theorem rk4_intervals_f0 (dt : ℝ) (inner : ℕ) (y : Fin 1 → ℝ) :
    ∀ (m : ℕ) (c : ℝ),
      rk4_intervals f0 dt inner m (y, c) = List.replicate m y := by
  intro m
  induction m with
  | zero => intro c; rfl
  | succ k ih =>
    intro c
    rw [rk4_intervals, rk4_step1_f0_iter, rk4_step1, rk4_onestep_f0, ih]
    rfl

theorem rk6_intervals_f0 (dt : ℝ) (inner : ℕ) (y : Fin 1 → ℝ) :
    ∀ (m : ℕ) (c : ℝ),
      rk6_intervals f0 dt inner m (y, c) = List.replicate m y := by
  intro m
  induction m with
  | zero => intro c; rfl
  | succ k ih =>
    intro c
    rw [rk6_intervals, rk6_step1_f0_iter, rk4_step1, rk4_onestep_f0, ih]
    rfl

theorem bovy_rk4_f0 (y : Fin 1 → ℝ) (nt : ℕ) (rtol atol : ℝ) :
    bovy_rk4 f0 y nt tlin rtol atol 1 =
      some (y :: List.replicate (nt - 1) y) := by
  have ht : tlin 1 - tlin 0 = 1 := by norm_num [tlin]
  rw [bovy_rk4]
  rw [ht, rk4_estimate_f0]
  have hndt : truncLong (1 / 1) = 1 := by norm_num [truncLong]
  simp only [hndt]
  norm_num [rk4_intervals_f0, tlin]

theorem bovy_rk6_f0 (y : Fin 1 → ℝ) (nt : ℕ) (rtol atol : ℝ) :
    bovy_rk6 f0 y nt tlin rtol atol 1 =
      some (y :: List.replicate (nt - 1) y) := by
  have ht : tlin 1 - tlin 0 = 1 := by norm_num [tlin]
  rw [bovy_rk6]
  rw [ht, rk6_estimate_f0]
  have hndt : truncLong (1 / 1) = 1 := by norm_num [truncLong]
  simp only [hndt]
  norm_num [rk6_intervals_f0, tlin]

/-- C9 (counterexample): `bovy_rk6` called with both tolerances zero — an
invalid input per the claim — is not rejected: no validation exists, and
with the zero derivative the run completes normally, writing both output
blocks (in particular, `y0` is written and the derivative is evaluated, so
nothing happens eagerly before computation). -/
theorem no_validation_rk6_zero_tol_runs :
    bovy_rk6 f0 zfun 2 tlin 0 0 1 = some [zfun, zfun] := by
  have := bovy_rk6_f0 zfun 2 0 0
  simpa using this

/-- C9 (amended): neither entry point validates its input; preconditions are
assumed (spec section 6), not re-validated.  With both tolerances zero —
invalid per the original claim — `bovy_rk4` proceeds and completes a normal
run, producing all `nt` output blocks, the first equal to `y0`. -/
theorem no_validation_rk4_zero_tol_runs :
    bovy_rk4 f0 zfun 2 tlin 0 0 1 = some [zfun, zfun] := by
  have := bovy_rk4_f0 zfun 2 0 0
  simpa using this

/-- C5: any step accepted by either estimator is `dt0 / 2^k` for some `k`,
so the driver's `ndt = (long)(dt_interval/dt)` equals `round(dt_interval/dt)`
(truncation and rounding agree because the quotient is exactly the integer
`2^k`), is at least 1, and on an equally spaced grid the accepted step evenly
divides every output interval: `(t[i+1]-t[i])/dt` is the integer `ndt ≥ 1`
for all `i`. -/
theorem substeps_round_and_divide
    (f : ℝ → (Fin (n + 1) → ℝ) → Fin (n + 1) → ℝ) (yo : Fin (n + 1) → ℝ)
    (t : ℕ → ℝ) (rtol atol : ℝ) (fuel : ℕ) (dt4 dt6 : ℝ)
    (h4 : rk4_estimate_step f yo (t 1 - t 0) (t 0) rtol atol fuel = some dt4)
    (h6 : rk6_estimate_step f yo (t 1 - t 0) (t 0) rtol atol fuel = some dt6)
    (hpos : 0 < t 1 - t 0)
    (heq : ∀ i, t (i + 1) - t i = t 1 - t 0) :
    (truncLong ((t 1 - t 0) / dt4) = round ((t 1 - t 0) / dt4) ∧
     1 ≤ truncLong ((t 1 - t 0) / dt4) ∧
     ∀ i, (t (i + 1) - t i) / dt4 = ((truncLong ((t 1 - t 0) / dt4) : ℤ) : ℝ)) ∧
    (truncLong ((t 1 - t 0) / dt6) = round ((t 1 - t 0) / dt6) ∧
     1 ≤ truncLong ((t 1 - t 0) / dt6) ∧
     ∀ i, (t (i + 1) - t i) / dt6 = ((truncLong ((t 1 - t 0) / dt6) : ℤ) : ℝ)) := by
  have h0 : t 1 - t 0 ≠ 0 := ne_of_gt hpos
  have key : ∀ dtr : ℝ, (∃ k : ℕ, dtr = (t 1 - t 0) / 2 ^ k) →
      truncLong ((t 1 - t 0) / dtr) = round ((t 1 - t 0) / dtr) ∧
      1 ≤ truncLong ((t 1 - t 0) / dtr) ∧
      ∀ i, (t (i + 1) - t i) / dtr = ((truncLong ((t 1 - t 0) / dtr) : ℤ) : ℝ) := by
    rintro dtr ⟨k, rfl⟩
    have hratio : (t 1 - t 0) / ((t 1 - t 0) / 2 ^ k) = 2 ^ k := by
      field_simp
    have hcast : ((2 : ℝ) ^ k) = (((2 ^ k : ℤ) : ℝ)) := by push_cast; ring
    have htrunc : truncLong ((t 1 - t 0) / ((t 1 - t 0) / 2 ^ k)) = 2 ^ k := by
      rw [hratio, hcast, truncLong, if_pos (by positivity), Int.floor_intCast]
    have hone : (1 : ℤ) ≤ 2 ^ k := by
      have h := Nat.one_le_two_pow (n := k)
      exact_mod_cast h
    refine ⟨?_, ?_, ?_⟩
    · rw [htrunc, hratio, hcast, round_intCast]
    · rw [htrunc]; exact hone
    · intro i
      rw [heq i, htrunc, hratio, hcast]
  have shape4 : ∃ k : ℕ, dt4 = (t 1 - t 0) / 2 ^ k := by
    rw [rk4_estimate_step] at h4
    obtain ⟨k, hk, _⟩ := estimate_loop_shape _ fuel (2 * (t 1 - t 0)) dt4 h4
    rw [two_dt_halved] at hk
    exact ⟨k, hk⟩
  have shape6 : ∃ k : ℕ, dt6 = (t 1 - t 0) / 2 ^ k := by
    rw [rk6_estimate_step] at h6
    obtain ⟨k, hk, _⟩ := estimate_loop_shape _ fuel (2 * (t 1 - t 0)) dt6 h6
    rw [two_dt_halved] at hk
    exact ⟨k, hk⟩
  exact ⟨key dt4 shape4, key dt6 shape6⟩

/-- Witness for `substeps_round_and_divide`: the zero-derivative run on the
grid `t[i] = i` accepts `dt = 1` in both estimators, with
`ndt = (long)(1/1) = round(1/1) = 1`. -/
theorem substeps_round_and_divide_witness :
    truncLong ((tlin 1 - tlin 0) / 1) = round ((tlin 1 - tlin 0) / 1) ∧
    1 ≤ truncLong ((tlin 1 - tlin 0) / 1) := by
  have h4 : rk4_estimate_step f0 zfun (tlin 1 - tlin 0) (tlin 0) 0 0 1 = some 1 := by
    have ht1 : tlin 1 - tlin 0 = 1 := by norm_num [tlin]
    have ht0 : tlin 0 = 0 := by norm_num [tlin]
    rw [ht1, ht0]
    exact rk4_estimate_f0 zfun 1 0 0 0
  have h6 : rk6_estimate_step f0 zfun (tlin 1 - tlin 0) (tlin 0) 0 0 1 = some 1 := by
    have ht1 : tlin 1 - tlin 0 = 1 := by norm_num [tlin]
    have ht0 : tlin 0 = 0 := by norm_num [tlin]
    rw [ht1, ht0]
    exact rk6_estimate_f0 zfun 1 0 0 0
  have h := substeps_round_and_divide f0 zfun tlin 0 0 1 1 1 h4 h6
    (by norm_num [tlin])
    (by intro i; push_cast [tlin]; ring)
  exact ⟨h.1.1, h.1.2.1⟩

/-- Generic form of the drivers' outer loop: repeatedly apply `adv` and
record `pr` of each intermediate point. -/
def chainList {α β : Type} (adv : α → α) (pr : α → β) : ℕ → α → List β
  | 0, _ => []
  | m + 1, p =>
    let q := adv p
    pr q :: chainList adv pr m q

theorem chainList_length {α β : Type} (adv : α → α) (pr : α → β) :
    ∀ (m : ℕ) (p : α), (chainList adv pr m p).length = m := by
  intro m
  induction m with
  | zero => intro p; rfl
  | succ k ih => intro p; simp [chainList, ih]

theorem chainList_get {α β : Type} (adv : α → α) (pr : α → β) :
    ∀ (m i : ℕ) (p : α), i < m →
      (chainList adv pr m p).get? i = some (pr (adv^[i + 1] p)) := by
  intro m
  induction m with
  | zero => intro i p h; exact absurd h (Nat.not_lt_zero i)
  | succ k ih =>
    intro i p h
    match i with
    | 0 => simp [chainList]
    | j + 1 =>
      have hj : j < k := Nat.lt_of_succ_lt_succ h
      have := ih j (adv p) hj
      simp only [chainList, List.get?]
      rw [this, ← Function.iterate_succ_apply]

theorem rk4_intervals_eq_chain
    (f : ℝ → (Fin (n + 1) → ℝ) → Fin (n + 1) → ℝ) (dt : ℝ) (inner : ℕ) :
    ∀ (m : ℕ) (p : (Fin (n + 1) → ℝ) × ℝ),
      rk4_intervals f dt inner m p =
        chainList (fun q => rk4_step1 f dt ((rk4_step1 f dt)^[inner] q))
          Prod.fst m p := by
  intro m
  induction m with
  | zero => intro p; rfl
  | succ k ih => intro p; simp only [rk4_intervals, chainList, ih]

theorem rk6_intervals_eq_chain
    (f : ℝ → (Fin (n + 1) → ℝ) → Fin (n + 1) → ℝ) (dt : ℝ) (inner : ℕ) :
    ∀ (m : ℕ) (p : (Fin (n + 1) → ℝ) × ℝ),
      rk6_intervals f dt inner m p =
        chainList (fun q => rk4_step1 f dt ((rk6_step1 f dt)^[inner] q))
          Prod.fst m p := by
  intro m
  induction m with
  | zero => intro p; rfl
  | succ k ih => intro p; simp only [rk6_intervals, chainList, ih]

/-- Advancing the rolling state across one full output interval of
`bovy_rk4`: `nd` RK4 single steps of size `dt` (each advancing the rolling
time by `dt`). -/
def rk4_intervalAdv (f : ℝ → (Fin (n + 1) → ℝ) → Fin (n + 1) → ℝ) (dt : ℝ)
    (nd : ℕ) (p : (Fin (n + 1) → ℝ) × ℝ) : (Fin (n + 1) → ℝ) × ℝ :=
  (rk4_step1 f dt)^[nd] p

/-- Advancing the rolling state across one full output interval of
`bovy_rk6`: `nd - 1` RK6 single steps followed by one RK4 single step (the
boundary step saved to the output buffer), all of size `dt`. -/
def rk6_intervalAdv (f : ℝ → (Fin (n + 1) → ℝ) → Fin (n + 1) → ℝ) (dt : ℝ)
    (nd : ℕ) (p : (Fin (n + 1) → ℝ) × ℝ) : (Fin (n + 1) → ℝ) × ℝ :=
  rk4_step1 f dt ((rk6_step1 f dt)^[nd - 1] p)

theorem rk4_step1_iter_time (f : ℝ → (Fin (n + 1) → ℝ) → Fin (n + 1) → ℝ)
    (dt : ℝ) : ∀ (k : ℕ) (p : (Fin (n + 1) → ℝ) × ℝ),
      ((rk4_step1 f dt)^[k] p).2 = p.2 + k * dt := by
  intro k
  induction k with
  | zero => intro p; simp
  | succ m ih =>
    intro p
    rw [Function.iterate_succ_apply, ih]
    show (rk4_step1 f dt p).2 + m * dt = p.2 + (m + 1 : ℕ) * dt
    rw [rk4_step1]
    push_cast
    ring

theorem rk6_step1_iter_time (f : ℝ → (Fin (n + 1) → ℝ) → Fin (n + 1) → ℝ)
    (dt : ℝ) : ∀ (k : ℕ) (p : (Fin (n + 1) → ℝ) × ℝ),
      ((rk6_step1 f dt)^[k] p).2 = p.2 + k * dt := by
  intro k
  induction k with
  | zero => intro p; simp
  | succ m ih =>
    intro p
    rw [Function.iterate_succ_apply, ih]
    show (rk6_step1 f dt p).2 + m * dt = p.2 + (m + 1 : ℕ) * dt
    rw [rk6_step1]
    push_cast
    ring

theorem rk4_intervalAdv_time (f : ℝ → (Fin (n + 1) → ℝ) → Fin (n + 1) → ℝ)
    (dt : ℝ) (nd : ℕ) (p : (Fin (n + 1) → ℝ) × ℝ) :
    (rk4_intervalAdv f dt nd p).2 = p.2 + nd * dt :=
  rk4_step1_iter_time f dt nd p

theorem rk6_intervalAdv_time (f : ℝ → (Fin (n + 1) → ℝ) → Fin (n + 1) → ℝ)
    (dt : ℝ) (nd : ℕ) (hnd : 1 ≤ nd) (p : (Fin (n + 1) → ℝ) × ℝ) :
    (rk6_intervalAdv f dt nd p).2 = p.2 + nd * dt := by
  rw [rk6_intervalAdv]
  show ((rk6_step1 f dt)^[nd - 1] p).2 + dt = p.2 + nd * dt
  rw [rk6_step1_iter_time]
  rw [Nat.cast_sub hnd]
  push_cast
  ring

theorem rk4_intervalAdv_iter_time
    (f : ℝ → (Fin (n + 1) → ℝ) → Fin (n + 1) → ℝ) (dt : ℝ) (nd : ℕ) :
    ∀ (i : ℕ) (p : (Fin (n + 1) → ℝ) × ℝ),
      ((rk4_intervalAdv f dt nd)^[i] p).2 = p.2 + (i * nd : ℕ) * dt := by
  intro i
  induction i with
  | zero => intro p; simp
  | succ m ih =>
    intro p
    rw [Function.iterate_succ_apply', rk4_intervalAdv_time, ih]
    push_cast
    ring

theorem rk6_intervalAdv_iter_time
    (f : ℝ → (Fin (n + 1) → ℝ) → Fin (n + 1) → ℝ) (dt : ℝ) (nd : ℕ)
    (hnd : 1 ≤ nd) :
    ∀ (i : ℕ) (p : (Fin (n + 1) → ℝ) × ℝ),
      ((rk6_intervalAdv f dt nd)^[i] p).2 = p.2 + (i * nd : ℕ) * dt := by
  intro i
  induction i with
  | zero => intro p; simp
  | succ m ih =>
    intro p
    rw [Function.iterate_succ_apply', rk6_intervalAdv_time f dt nd hnd, ih]
    push_cast
    ring

theorem rk4_intervals_length
    (f : ℝ → (Fin (n + 1) → ℝ) → Fin (n + 1) → ℝ) (dt : ℝ) (inner m : ℕ)
    (p : (Fin (n + 1) → ℝ) × ℝ) : (rk4_intervals f dt inner m p).length = m := by
  rw [rk4_intervals_eq_chain, chainList_length]

theorem rk6_intervals_length
    (f : ℝ → (Fin (n + 1) → ℝ) → Fin (n + 1) → ℝ) (dt : ℝ) (inner m : ℕ)
    (p : (Fin (n + 1) → ℝ) × ℝ) : (rk6_intervals f dt inner m p).length = m := by
  rw [rk6_intervals_eq_chain, chainList_length]

/-- C7: for every run of either entry point that completes, exactly `nt`
state blocks are emitted, in time order; block 0 equals `y0` exactly (for
every derivative function, i.e. before any integration), and block `i+1` is
obtained from block `i` by `ndt` fixed-size single steps starting at the
rolling time `t[0] + i*ndt*dt` (for `bovy_rk6` these are `ndt-1` RK6 steps
and one final RK4 step, see `rk6_intervalAdv`). -/
theorem drivers_output_grid
    (f : ℝ → (Fin (n + 1) → ℝ) → Fin (n + 1) → ℝ) (yo : Fin (n + 1) → ℝ)
    (nt : ℕ) (t : ℕ → ℝ) (rtol atol : ℝ) (fuel : ℕ) (dt4 dt6 : ℝ)
    (out4 out6 : List (Fin (n + 1) → ℝ))
    (h4e : rk4_estimate_step f yo (t 1 - t 0) (t 0) rtol atol fuel = some dt4)
    (h6e : rk6_estimate_step f yo (t 1 - t 0) (t 0) rtol atol fuel = some dt6)
    (h4 : bovy_rk4 f yo nt t rtol atol fuel = some out4)
    (h6 : bovy_rk6 f yo nt t rtol atol fuel = some out6)
    (hnt : 1 ≤ nt)
    (hn4 : 1 ≤ truncLong ((t 1 - t 0) / dt4))
    (hn6 : 1 ≤ truncLong ((t 1 - t 0) / dt6)) :
    (out4.length = nt ∧ out4.get? 0 = some yo ∧
      ∀ i, i + 1 < nt → out4.get? (i + 1) = (out4.get? i).map (fun b =>
        (rk4_intervalAdv f dt4 (truncLong ((t 1 - t 0) / dt4)).toNat
          (b, t 0 + (i * (truncLong ((t 1 - t 0) / dt4)).toNat : ℕ) * dt4)).1)) ∧
    (out6.length = nt ∧ out6.get? 0 = some yo ∧
      ∀ i, i + 1 < nt → out6.get? (i + 1) = (out6.get? i).map (fun b =>
        (rk6_intervalAdv f dt6 (truncLong ((t 1 - t 0) / dt6)).toNat
          (b, t 0 + (i * (truncLong ((t 1 - t 0) / dt6)).toNat : ℕ) * dt6)).1)) := by
  constructor
  · set nd4 : ℤ := truncLong ((t 1 - t 0) / dt4) with hnd4def
    have hout4 : out4 = yo ::
        rk4_intervals f dt4 ((nd4 - 1).toNat) (nt - 1) (yo, t 0) := by
      rw [bovy_rk4, h4e] at h4
      simp only [Option.some.injEq] at h4
      exact h4.symm
    have hinner : (nd4 - 1).toNat + 1 = nd4.toNat := by omega
    have hadv : (fun q => rk4_step1 f dt4 ((rk4_step1 f dt4)^[(nd4 - 1).toNat] q))
        = rk4_intervalAdv f dt4 nd4.toNat := by
      funext q
      rw [rk4_intervalAdv, ← hinner, Function.iterate_succ_apply']
    have hblocks : ∀ j, j < nt → out4.get? j =
        some ((rk4_intervalAdv f dt4 nd4.toNat)^[j] (yo, t 0)).1 := by
      intro j hj
      rw [hout4]
      match j with
      | 0 => simp
      | j + 1 =>
        have hj2 : j < nt - 1 := by omega
        show (rk4_intervals f dt4 ((nd4 - 1).toNat) (nt - 1) (yo, t 0)).get? j = _
        rw [rk4_intervals_eq_chain, chainList_get _ _ _ _ _ hj2, hadv]
    refine ⟨?_, ?_, ?_⟩
    · rw [hout4]
      simp [rk4_intervals_length]
      omega
    · rw [hout4]; rfl
    · intro i hi
      rw [hblocks (i + 1) hi, hblocks i (by omega)]
      rw [Option.map_some']
      have hp : (rk4_intervalAdv f dt4 nd4.toNat)^[i] (yo, t 0)
          = (((rk4_intervalAdv f dt4 nd4.toNat)^[i] (yo, t 0)).1,
             t 0 + ((i * nd4.toNat : ℕ) : ℝ) * dt4) := by
        refine Prod.ext rfl ?_
        rw [rk4_intervalAdv_iter_time]
      conv_lhs => rw [Function.iterate_succ_apply', hp]
  · set nd6 : ℤ := truncLong ((t 1 - t 0) / dt6) with hnd6def
    have hout6 : out6 = yo ::
        rk6_intervals f dt6 ((nd6 - 1).toNat) (nt - 1) (yo, t 0) := by
      rw [bovy_rk6, h6e] at h6
      simp only [Option.some.injEq] at h6
      exact h6.symm
    have hinner : (nd6 - 1).toNat = nd6.toNat - 1 := by omega
    have hadv : (fun q => rk4_step1 f dt6 ((rk6_step1 f dt6)^[(nd6 - 1).toNat] q))
        = rk6_intervalAdv f dt6 nd6.toNat := by
      funext q
      rw [rk6_intervalAdv, hinner]
    have hblocks : ∀ j, j < nt → out6.get? j =
        some ((rk6_intervalAdv f dt6 nd6.toNat)^[j] (yo, t 0)).1 := by
      intro j hj
      rw [hout6]
      match j with
      | 0 => simp
      | j + 1 =>
        have hj2 : j < nt - 1 := by omega
        show (rk6_intervals f dt6 ((nd6 - 1).toNat) (nt - 1) (yo, t 0)).get? j = _
        rw [rk6_intervals_eq_chain, chainList_get _ _ _ _ _ hj2, hadv]
    refine ⟨?_, ?_, ?_⟩
    · rw [hout6]
      simp [rk6_intervals_length]
      omega
    · rw [hout6]; rfl
    · intro i hi
      rw [hblocks (i + 1) hi, hblocks i (by omega)]
      rw [Option.map_some']
      have hp : (rk6_intervalAdv f dt6 nd6.toNat)^[i] (yo, t 0)
          = (((rk6_intervalAdv f dt6 nd6.toNat)^[i] (yo, t 0)).1,
             t 0 + ((i * nd6.toNat : ℕ) : ℝ) * dt6) := by
        refine Prod.ext rfl ?_
        rw [rk6_intervalAdv_iter_time f dt6 nd6.toNat (by omega)]
      conv_lhs => rw [Function.iterate_succ_apply', hp]

/-- Witness for `drivers_output_grid`: the zero-derivative run with `nt = 2`
on the grid `t[i] = i` completes with output `[y0, y0]` in both drivers. -/
theorem drivers_output_grid_witness :
    ([zfun, zfun] : List (Fin 1 → ℝ)).length = 2 ∧
    ([zfun, zfun] : List (Fin 1 → ℝ)).get? 0 = some zfun := by
  have ht1 : tlin 1 - tlin 0 = 1 := by norm_num [tlin]
  have ht0 : tlin 0 = 0 := by norm_num [tlin]
  have h4e : rk4_estimate_step f0 zfun (tlin 1 - tlin 0) (tlin 0) 0 0 1 = some 1 := by
    rw [ht1, ht0]; exact rk4_estimate_f0 zfun 1 0 0 0
  have h6e : rk6_estimate_step f0 zfun (tlin 1 - tlin 0) (tlin 0) 0 0 1 = some 1 := by
    rw [ht1, ht0]; exact rk6_estimate_f0 zfun 1 0 0 0
  have h4 : bovy_rk4 f0 zfun 2 tlin 0 0 1 = some [zfun, zfun] := by
    have := bovy_rk4_f0 zfun 2 0 0
    simpa using this
  have h6 : bovy_rk6 f0 zfun 2 tlin 0 0 1 = some [zfun, zfun] := by
    have := bovy_rk6_f0 zfun 2 0 0
    simpa using this
  have hn : (1 : ℤ) ≤ truncLong ((tlin 1 - tlin 0) / 1) := by
    rw [ht1]
    norm_num [truncLong]
  have h := drivers_output_grid f0 zfun 2 tlin 0 0 1 1 1 [zfun, zfun] [zfun, zfun]
    h4e h6e h4 h6 (by norm_num) hn hn
  exact ⟨h.1.1, h.1.2.1⟩

/-- C10: for every completed run of either entry point, the caller-supplied
initial state, time grid and parameter block are unchanged on return; the
output buffer `res` is the only caller-owned field the core replaces. -/
theorem drivers_frame_inputs
    (f : ℝ → (Fin (n + 1) → ℝ) → List ℝ → Fin (n + 1) → ℝ) (nt : ℕ)
    (rtol atol : ℝ) (fuel : ℕ) (m m4 m6 : Mem n)
    (h4 : bovy_rk4_mem f nt rtol atol fuel m = some m4)
    (h6 : bovy_rk6_mem f nt rtol atol fuel m = some m6) :
    (m4.yo = m.yo ∧ m4.t = m.t ∧ m4.args = m.args) ∧
    (m6.yo = m.yo ∧ m6.t = m.t ∧ m6.args = m.args) := by
  constructor
  · rw [bovy_rk4_mem] at h4
    cases hc : bovy_rk4 (fun tt q => f tt q m.args) m.yo nt m.t rtol atol fuel with
    | none => rw [hc] at h4; simp at h4
    | some out =>
      rw [hc] at h4
      simp only [Option.some.injEq] at h4
      rw [← h4]
      exact ⟨rfl, rfl, rfl⟩
  · rw [bovy_rk6_mem] at h6
    cases hc : bovy_rk6 (fun tt q => f tt q m.args) m.yo nt m.t rtol atol fuel with
    | none => rw [hc] at h6; simp at h6
    | some out =>
      rw [hc] at h6
      simp only [Option.some.injEq] at h6
      rw [← h6]
      exact ⟨rfl, rfl, rfl⟩

/-- Concrete one-dimensional derivative taking an explicit parameter block
and returning zero. -/
def f0args : ℝ → (Fin 1 → ℝ) → List ℝ → Fin 1 → ℝ := fun _ _ _ => zfun

/-- Concrete caller memory before a run. -/
def mem0 : Mem 0 := ⟨zfun, tlin, [], []⟩

/-- Concrete caller memory after the zero-derivative run with `nt = 2`. -/
def memRes : Mem 0 := ⟨zfun, tlin, [], [zfun, zfun]⟩

theorem bovy_rk4_mem_f0args : bovy_rk4_mem f0args 2 0 0 1 mem0 = some memRes := by
  rw [bovy_rk4_mem]
  have hrun : bovy_rk4 (fun tt q => f0args tt q mem0.args) mem0.yo 2 mem0.t 0 0 1
      = some [zfun, zfun] := by
    show bovy_rk4 f0 zfun 2 tlin 0 0 1 = some [zfun, zfun]
    have := bovy_rk4_f0 zfun 2 0 0
    simpa using this
  rw [hrun]
  rfl

theorem bovy_rk6_mem_f0args : bovy_rk6_mem f0args 2 0 0 1 mem0 = some memRes := by
  rw [bovy_rk6_mem]
  have hrun : bovy_rk6 (fun tt q => f0args tt q mem0.args) mem0.yo 2 mem0.t 0 0 1
      = some [zfun, zfun] := by
    show bovy_rk6 f0 zfun 2 tlin 0 0 1 = some [zfun, zfun]
    have := bovy_rk6_f0 zfun 2 0 0
    simpa using this
  rw [hrun]
  rfl

/-- Witness for `drivers_frame_inputs`: the zero-derivative run leaves the
concrete caller memory `mem0` with its `yo`, `t` and `args` fields intact. -/
theorem drivers_frame_inputs_witness :
    memRes.yo = mem0.yo ∧ memRes.t = mem0.t ∧ memRes.args = mem0.args :=
  (drivers_frame_inputs f0args 2 0 0 1 mem0 memRes memRes
    bovy_rk4_mem_f0args bovy_rk6_mem_f0args).1

/-- One-dimensional derivative family `f(t,y) = c/t` (with the value 0 at
`t = 0`, as `c/0 = 0` in Mathlib): for every trial step `dt > 0` starting
from `t0 = 0` the RK4 step-doubling discrepancy is the constant `-25*c/36`,
independent of `dt`. -/
def fdivt (c : ℝ) : ℝ → (Fin 1 → ℝ) → Fin 1 → ℝ := fun t _ => cfun (c / t)

/-- Pathological derivative for the non-termination claim: `f(t,y) = 36/t`,
whose step-doubling discrepancy is the constant `-25`. -/
def fpatho : ℝ → (Fin 1 → ℝ) → Fin 1 → ℝ := fdivt 36

theorem rk4_onestep_fdivt_from0 (c dt : ℝ) (hdt : dt ≠ 0) (y : Fin 1 → ℝ) :
    bovy_rk4_onestep (fdivt c) y y 0 dt = fun i => y i + 3 * c / 2 := by
  funext i
  simp only [bovy_rk4_onestep, fdivt, cfun, div_zero, mul_zero, zero_div,
    add_zero, zero_add]
  field_simp
  ring

theorem rk4_onestep_fdivt_half (c dt : ℝ) (hdt : dt ≠ 0) (y : Fin 1 → ℝ) :
    bovy_rk4_onestep (fdivt c) y y (0 + dt / 2) (dt / 2)
      = fun i => y i + 25 * c / 36 := by
  funext i
  simp only [bovy_rk4_onestep, fdivt, cfun, zero_add]
  have h34 : dt / 2 + dt / 2 / 2 = 3 * dt / 4 := by ring
  rw [h34]
  field_simp
  ring

theorem maxAbs_zfun : maxAbs zfun = 0 := by
  simp [maxAbs, zfun]

theorem lseScale_zfun : lseScale zfun 0 0 = Real.log 2 := by
  rw [lseScale, maxAbs_zfun]
  norm_num [Real.exp_zero]

theorem errTerm_neg25 : errTerm (-25) (Real.log 2) = 625 / 4 := by
  rw [errTerm, if_neg (by norm_num)]
  have habs : |(-25 : ℝ)| = 25 := by norm_num
  rw [habs]
  have h625 : 2 * Real.log 25 = Real.log 625 := by
    rw [show (625 : ℝ) = 25 ^ 2 by norm_num, Real.log_pow]
    push_cast
    ring
  have h4 : 2 * Real.log 2 = Real.log 4 := by
    rw [show (4 : ℝ) = 2 ^ 2 by norm_num, Real.log_pow]
    push_cast
    ring
  rw [h625, h4, ← Real.log_div (by norm_num) (by norm_num),
    Real.exp_log (by norm_num)]

theorem rk4_err_fpatho (dt : ℝ) (hdt : dt ≠ 0) :
    rk4_err fpatho zfun 0 dt 0 0 = 25 / 2 := by
  have hhalf : dt / 2 ≠ 0 := by
    intro h
    exact hdt (by linarith [h] )
  rw [rk4_err, fpatho, rk4_onestep_fdivt_from0 36 dt hdt,
    rk4_onestep_fdivt_from0 36 (dt / 2) hhalf,
    rk4_onestep_fdivt_half 36 dt hdt, lseScale_zfun]
  have hdiff : ∀ i : Fin 1,
      (zfun i + 3 * 36 / 2) - (zfun i + 3 * 36 / 2 + 25 * 36 / 36) = -25 := by
    intro i
    ring
  simp only [hdiff, errTerm_neg25]
  rw [Fin.sum_univ_one]
  simp only [Nat.cast_zero, zero_add, div_one]
  rw [show (625 / 4 : ℝ) = (25 / 2) ^ 2 by norm_num,
    Real.sqrt_sq (by norm_num : (0 : ℝ) ≤ 25 / 2)]

theorem estimate_loop_fpatho_none :
    ∀ (fuel : ℕ) (dt : ℝ), 0 < dt →
      estimate_loop (fun h => rk4_err fpatho zfun 0 h 0 0) fuel dt = none := by
  intro fuel
  induction fuel with
  | zero => intro dt _; rfl
  | succ k ih =>
    intro dt hdt
    have hhalf : (0 : ℝ) < dt / 2 := by positivity
    have herr : rk4_err fpatho zfun 0 (dt / 2) 0 0 = 25 / 2 :=
      rk4_err_fpatho (dt / 2) (ne_of_gt hhalf)
    simp only [estimate_loop]
    simp only [herr]
    rw [if_neg (by norm_num : ¬ (25 / 2 : ℝ) ≤ 1)]
    exact ih (dt / 2) hhalf

/-- C8: the halving loop has no iteration cap.  For the derivative
`fpatho (t,y) = 36/t` the step-doubling error estimate equals `25/2 > 1` at
every trial step, so the estimator exhausts any amount of fuel (i.e. the C
`while` loop never terminates), and consequently the whole `bovy_rk4`
integration run never produces output. -/
theorem estimator_no_iteration_cap :
    ∀ (fuel nt : ℕ),
      rk4_estimate_step fpatho zfun 1 0 0 0 fuel = none ∧
      bovy_rk4 fpatho zfun nt tlin 0 0 fuel = none := by
  intro fuel nt
  have hest : rk4_estimate_step fpatho zfun 1 0 0 0 fuel = none := by
    rw [rk4_estimate_step]
    exact estimate_loop_fpatho_none fuel (2 * 1) (by norm_num)
  refine ⟨hest, ?_⟩
  have ht1 : tlin 1 - tlin 0 = 1 := by norm_num [tlin]
  have ht0 : tlin 0 = 0 := by norm_num [tlin]
  rw [bovy_rk4, ht1, ht0, hest]

/-- The acceptance norm as the claim words it: the root-mean-square over all
components of `(y_full - y_half) / scale_i`, with `scale_i` the log-sum-exp
value `lseScale` itself.  This definition follows the claim text, for
comparison with `rk4_err`, which divides by `exp(scale_i)` instead (the C
code computes `exp(2*log|d| - 2*scale)`). -/
def rk4_rms_by_scale (f : ℝ → (Fin (n + 1) → ℝ) → Fin (n + 1) → ℝ)
    (yo : Fin (n + 1) → ℝ) (t0 dt rtol atol : ℝ) : ℝ :=
  let s := lseScale yo rtol atol
  let y1 := bovy_rk4_onestep f yo yo t0 dt
  let y21 := bovy_rk4_onestep f yo yo t0 (dt / 2)
  let y2 := bovy_rk4_onestep f y21 y21 (t0 + dt / 2) (dt / 2)
  Real.sqrt ((∑ i, ((y1 i - y2 i) / s) ^ 2) / (n + 1))

theorem errTerm_neg1 : errTerm (-1) (Real.log 2) = 1 / 4 := by
  rw [errTerm, if_neg (by norm_num)]
  have habs : |(-1 : ℝ)| = 1 := by norm_num
  rw [habs, Real.log_one, mul_zero, zero_sub]
  have h4 : 2 * Real.log 2 = Real.log 4 := by
    rw [show (4 : ℝ) = 2 ^ 2 by norm_num, Real.log_pow]
    push_cast
    ring
  rw [h4, Real.exp_neg, Real.exp_log (by norm_num : (0 : ℝ) < 4)]
  norm_num

theorem rk4_err_fC3 (dt : ℝ) (hdt : dt ≠ 0) :
    rk4_err (fdivt (36 / 25)) zfun 0 dt 0 0 = 1 / 2 := by
  have hhalf : dt / 2 ≠ 0 := by
    intro h
    exact hdt (by linarith [h])
  rw [rk4_err, rk4_onestep_fdivt_from0 (36 / 25) dt hdt,
    rk4_onestep_fdivt_from0 (36 / 25) (dt / 2) hhalf,
    rk4_onestep_fdivt_half (36 / 25) dt hdt, lseScale_zfun]
  have hdiff : ∀ i : Fin 1,
      (zfun i + 3 * (36 / 25) / 2) -
        (zfun i + 3 * (36 / 25) / 2 + 25 * (36 / 25) / 36) = -1 := by
    intro i
    ring
  simp only [hdiff, errTerm_neg1]
  rw [Fin.sum_univ_one]
  simp only [Nat.cast_zero, zero_add, div_one]
  rw [show (1 / 4 : ℝ) = (1 / 2) ^ 2 by norm_num,
    Real.sqrt_sq (by norm_num : (0 : ℝ) ≤ 1 / 2)]

/-- C3 (counterexample): with `f(t,y) = (36/25)/t`, `y0 = 0`, `dt0 = 1`,
`rtol = atol = 0`, the scale is `s = log 2` and the step-doubling
discrepancy is `-1`.  The code's estimator accepts the first trial
(`err = |−1|/exp(s) = 1/2 ≤ 1`), yet the norm the claim describes —
dividing by the scale value `s` itself — evaluates to `1/log 2 > 1` and
would reject the same trial. -/
theorem rk4_err_scale_counterexample :
    rk4_estimate_step (fdivt (36 / 25)) zfun 1 0 0 0 1 = some 1 ∧
    ¬ rk4_rms_by_scale (fdivt (36 / 25)) zfun 0 1 0 0 ≤ 1 := by
  constructor
  · rw [rk4_estimate_step]
    simp only [estimate_loop]
    rw [show (2 * (1 : ℝ)) / 2 = 1 by norm_num]
    simp only [rk4_err_fC3 1 one_ne_zero]
    rw [if_pos (by norm_num)]
  · have hlogpos : 0 < Real.log 2 := Real.log_pos (by norm_num)
    rw [rk4_rms_by_scale, rk4_onestep_fdivt_from0 (36 / 25) 1 one_ne_zero,
      rk4_onestep_fdivt_from0 (36 / 25) (1 / 2) (by norm_num),
      rk4_onestep_fdivt_half (36 / 25) 1 one_ne_zero, lseScale_zfun]
    have hdiff : ∀ i : Fin 1,
        (zfun i + 3 * (36 / 25) / 2) -
          (zfun i + 3 * (36 / 25) / 2 + 25 * (36 / 25) / 36) = -1 := by
      intro i
      ring
    simp only [hdiff]
    rw [Fin.sum_univ_one]
    simp only [Nat.cast_zero, zero_add, div_one]
    rw [neg_div, neg_sq, Real.sqrt_sq (by positivity)]
    rw [not_le, lt_div_iff₀ hlogpos, one_mul]
    have := Real.log_two_lt_d9
    linarith

/-- C3 (amended): the per-component tolerance scale is indeed the same for
every component and equals the log-sum-exp `log(exp(atol) +
exp(rtol*max|y0|))`; but the acceptance norm divides the step-doubling
discrepancies by `exp(scale) = exp(atol) + exp(rtol*max|y0|)`, not by the
scale value itself: `rk4_err` is the root-mean-square of
`(y_full - y_half) / (exp(atol) + exp(rtol*max|y0|))`, and the estimator
accepts exactly when this is at most 1. -/
theorem rk4_err_divides_by_exp_of_scale
    (f : ℝ → (Fin (n + 1) → ℝ) → Fin (n + 1) → ℝ) (yo : Fin (n + 1) → ℝ)
    (t0 dt rtol atol : ℝ) :
    lseScale yo rtol atol =
      Real.log (Real.exp atol + Real.exp (rtol * maxAbs yo)) ∧
    rk4_err f yo t0 dt rtol atol =
      Real.sqrt ((∑ i, ((bovy_rk4_onestep f yo yo t0 dt i -
          bovy_rk4_onestep f (bovy_rk4_onestep f yo yo t0 (dt / 2))
            (bovy_rk4_onestep f yo yo t0 (dt / 2)) (t0 + dt / 2) (dt / 2) i) /
          (Real.exp atol + Real.exp (rtol * maxAbs yo))) ^ 2) / (n + 1)) := by
  have hE : 0 < Real.exp atol + Real.exp (rtol * maxAbs yo) := by positivity
  have hscale : lseScale yo rtol atol =
      Real.log (Real.exp atol + Real.exp (rtol * maxAbs yo)) := by
    rw [lseScale]
    have hsum : Real.exp (atol - max atol (rtol * maxAbs yo)) +
        Real.exp (rtol * maxAbs yo - max atol (rtol * maxAbs yo)) =
        (Real.exp atol + Real.exp (rtol * maxAbs yo)) /
          Real.exp (max atol (rtol * maxAbs yo)) := by
      rw [Real.exp_sub, Real.exp_sub, div_add_div_same]
    rw [hsum, Real.log_div (ne_of_gt hE) (Real.exp_ne_zero _), Real.log_exp]
    ring
  have hexp : Real.exp (lseScale yo rtol atol) =
      Real.exp atol + Real.exp (rtol * maxAbs yo) := by
    rw [hscale, Real.exp_log hE]
  have herrTerm : ∀ d : ℝ, errTerm d (lseScale yo rtol atol) =
      (d / (Real.exp atol + Real.exp (rtol * maxAbs yo))) ^ 2 := by
    intro d
    rw [errTerm]
    by_cases hd : d = 0
    · rw [if_pos hd, hd]
      norm_num
    · rw [if_neg hd]
      have habs : (0 : ℝ) < |d| := abs_pos.mpr hd
      have h2 : 2 * Real.log |d| - 2 * lseScale yo rtol atol =
          (Real.log |d| - lseScale yo rtol atol) +
          (Real.log |d| - lseScale yo rtol atol) := by ring
      rw [h2, Real.exp_add, Real.exp_sub, Real.exp_log habs, hexp]
      rw [div_mul_div_comm, div_pow, ← sq_abs d, pow_two, pow_two]
  refine ⟨hscale, ?_⟩
  simp only [rk4_err, herrTerm]

/-- One-dimensional derivative `f(t,y) = t^4`: both single-step formulas
integrate it exactly enough for the step-doubling estimate to vanish, but
the RK4 and RK6 single steps over `[0,1]` give different results
(`5/24` versus the exact `1/5`). -/
def fquart : ℝ → (Fin 1 → ℝ) → Fin 1 → ℝ := fun t _ => cfun (t ^ 4)

theorem rk6_onestep_fquart_full :
    bovy_rk6_onestep fquart zfun zfun 0 1 = cfun (1 / 5) := by
  funext i
  simp only [bovy_rk6_onestep, fquart, cfun, zfun]
  norm_num

theorem rk6_onestep_fquart_h1 :
    bovy_rk6_onestep fquart zfun zfun 0 (1 / 2) = cfun (1 / 160) := by
  funext i
  simp only [bovy_rk6_onestep, fquart, cfun, zfun]
  norm_num

theorem rk6_onestep_fquart_h2 :
    bovy_rk6_onestep fquart (cfun (1 / 160)) (cfun (1 / 160)) (0 + 1 / 2)
      (1 / 2) = cfun (1 / 5) := by
  funext i
  simp only [bovy_rk6_onestep, fquart, cfun, zfun]
  norm_num

theorem rk4_onestep_fquart :
    bovy_rk4_onestep fquart zfun zfun 0 1 = cfun (5 / 24) := by
  funext i
  simp only [bovy_rk4_onestep, fquart, cfun, zfun]
  norm_num

theorem rk6_err_fquart : rk6_err fquart zfun 0 1 0 0 = 0 := by
  rw [rk6_err, rk6_onestep_fquart_full, rk6_onestep_fquart_h1,
    rk6_onestep_fquart_h2]
  have hdiff : ∀ i : Fin 1, cfun (1 / 5) i - cfun (1 / 5) i = 0 := by
    intro i
    ring
  simp [hdiff, errTerm_zero]

theorem rk6_estimate_fquart :
    rk6_estimate_step fquart zfun 1 0 0 0 1 = some 1 := by
  rw [rk6_estimate_step]
  simp only [estimate_loop]
  rw [show (2 * (1 : ℝ)) / 2 = 1 by norm_num]
  simp only [rk6_err_fquart]
  rw [if_pos (by norm_num)]

/-- C1 (code_bug evidence): for `f(t,y) = t^4`, `y0 = 0`, grid `t = [0, 1]`,
zero tolerances, the RK6 driver accepts `dt = 1` (so `ndt = 1` and the only
substep of the only interval is the interval-boundary step).  The run
produces `5/24` as block 1 — the RK4 single-step value, because
`bovy_rk6` calls `bovy_rk4_onestep` at the interval boundary (bovy_rk.c line
175) — whereas the RK6 single-step formula gives `1/5`. -/
theorem rk6_driver_boundary_step_is_rk4 :
    bovy_rk6 fquart zfun 2 tlin 0 0 1 = some [zfun, cfun (5 / 24)] ∧
    bovy_rk6_onestep fquart zfun zfun 0 1 = cfun (1 / 5) ∧
    cfun (5 / 24) ≠ cfun (1 / 5) := by
  refine ⟨?_, rk6_onestep_fquart_full, ?_⟩
  · have ht1 : tlin 1 - tlin 0 = 1 := by norm_num [tlin]
    have ht0 : tlin 0 = 0 := by norm_num [tlin]
    rw [bovy_rk6, ht1, ht0, rk6_estimate_fquart]
    have hndt : truncLong ((1 : ℝ) / 1) = 1 := by norm_num [truncLong]
    simp only [hndt]
    norm_num [rk6_intervals, rk4_step1, rk4_onestep_fquart]
  · intro h
    have := congrFun h 0
    simp only [cfun] at this
    norm_num at this

end BovyRK
